import Mathlib

/-!
# Verification of the `AcceptEncoding` header module

A shallow embedding of `src/content/accept_encoding.rs`: the
`AcceptEncoding` aggregate (an ordered list of encoding proposals plus a
wildcard flag), its parser `from_headers`, its serializer `value`, and the
header-store operations `apply` and `to_header_values`.

The collaborator types (`Encoding`, `EncodingProposal`, `Quality`, the
`Headers` store and `HeaderValue`) live outside the given source tree; they
are modelled from the specification (sections 3, 4.1 and 6).  Header values
are modelled as Lean `String`s; the character-level work is done on
`List Char` (mirroring Rust's `str::split`, `str::trim` and pattern
matching on `&str`).
-/

/-- Character classes, numeric on code points so that `omega` can reason
about them.  ASCII whitespace as trimmed by the parser. -/
def isWsChar (c : Char) : Bool :=
  c.toNat == 32 || c.toNat == 9 || c.toNat == 10 || c.toNat == 13

/-- ASCII decimal digit. -/
def isDigitChar (c : Char) : Bool :=
  48 ≤ c.toNat && c.toNat ≤ 57

/-- Characters an extension encoding token may consist of: lowercase ASCII
letters, digits, `-` and `_`. -/
def isTokenChar (c : Char) : Bool :=
  (97 ≤ c.toNat && c.toNat ≤ 122) || isDigitChar c || c.toNat == 45 || c.toNat == 95

/-- ASCII lowercasing of one character. -/
def lowerChar (c : Char) : Char :=
  if 65 ≤ c.toNat && c.toNat ≤ 90 then Char.ofNat (c.toNat + 32) else c

/-- Printable ASCII (space through tilde). -/
def isPrintableAscii (c : Char) : Bool :=
  32 ≤ c.toNat && c.toNat ≤ 126

/-- Embedding of Rust `str::trim` on the character list: drop whitespace
from both ends. -/
def trimCs (l : List Char) : List Char :=
  ((l.dropWhile isWsChar).reverse.dropWhile isWsChar).reverse

/-- Embedding of Rust `str::split(',')`: split on every comma; the empty
input yields one empty piece, like Rust's splitter. -/
def splitComma : List Char → List (List Char)
  | [] => [[]]
  | c :: rest =>
    if c = ',' then [] :: splitComma rest
    else
      match splitComma rest with
      | s :: ss => (c :: s) :: ss
      | [] => [[c]]

/-- Split a directive at the first `;`: the part before it and, when a `;`
exists, the remainder after it. -/
def splitSemi : List Char → List Char × Option (List Char)
  | [] => ([], none)
  | c :: rest =>
    if c = ';' then ([], some rest)
    else
      let (a, b) := splitSemi rest
      (c :: a, b)

/-- Modelled from the spec: `EncodingIdentifier` (spec section 3), the type
the source imports as `crate::content::Encoding`.  A closed set of
well-known encoding tokens plus an extension case carrying the token
text (stored lowercased). -/
inductive Encoding where
  | gzip
  | deflate
  | br
  | identity
  | compress
  | other (token : String)
deriving DecidableEq, Repr

/-- Look a (lowercased) name up in the closed set of well-known encodings. -/
def Encoding.known? (name : List Char) : Option Encoding :=
  if name = "gzip".data then some .gzip
  else if name = "deflate".data then some .deflate
  else if name = "br".data then some .br
  else if name = "identity".data then some .identity
  else if name = "compress".data then some .compress
  else none

/-- Modelled from the spec: identifier parsing is case-insensitive;
unmatched names become the extension variant carrying the lowercased
text (spec section 4.1). -/
def Encoding.fromName (name : List Char) : Encoding :=
  match Encoding.known? (name.map lowerChar) with
  | some e => e
  | none => Encoding.other (String.mk (name.map lowerChar))

/-- Canonical lowercase rendering of an encoding identifier. -/
def Encoding.renderCs : Encoding → List Char
  | .gzip => "gzip".data
  | .deflate => "deflate".data
  | .br => "br".data
  | .identity => "identity".data
  | .compress => "compress".data
  | .other t => t.data

/-- Modelled from the spec: `Quality`, a fixed-point value in [0, 1] with
at most 3 decimal digits, remembering exactly the digits it was built
from (`whole` is the integer digit, `frac` the fractional digits). -/
structure Quality where
  whole : Nat
  frac : List Char
deriving DecidableEq, Repr

/-- Render a quality with exactly the precision it carries: the integer
digit, then `.` and the fractional digits when there are any. -/
def Quality.renderCs (q : Quality) : List Char :=
  Nat.toDigits 10 q.whole ++ (if q.frac.isEmpty then [] else '.' :: q.frac)

/-- Range check of the grammar: build the quality only when its numeric
value lies in [0.000, 1.000]. -/
def Quality.mk? (whole : Nat) (frac : List Char) : Option Quality :=
  if whole == 0 || (whole == 1 && frac.all (fun c => c == '0')) then
    some ⟨whole, frac⟩
  else none

/-- Modelled from the spec: parse the parameter part of a directive
(already trimmed); it must match `q=<digit>[.<digit>{1,3}]` with optional
whitespace around `=`, and denote a value in [0.000, 1.000]; anything
else yields `none` (spec section 4.1). -/
def Quality.parseParam (p : List Char) : Option Quality :=
  match p with
  | [] => none
  | c :: rest =>
    if c = 'q' then
      match rest.dropWhile isWsChar with
      | [] => none
      | c2 :: rest2 =>
        if c2 = '=' then
          match rest2.dropWhile isWsChar with
          | [] => none
          | d :: rest3 =>
            if isDigitChar d then
              match rest3 with
              | [] => Quality.mk? (d.toNat - 48) []
              | c3 :: frac =>
                if c3 = '.' then
                  if !frac.isEmpty && frac.length ≤ 3 && frac.all isDigitChar then
                    Quality.mk? (d.toNat - 48) frac
                  else none
                else none
            else none
        else none
    else none

/-- Modelled from the spec: `EncodingProposal` — one directive, an
identifier plus an optional weight (spec section 3). -/
structure EncodingProposal where
  identifier : Encoding
  weight : Option Quality
deriving DecidableEq, Repr

/-- Render one proposal: `<identifier>` or `<identifier>;q=<weight>`. -/
def EncodingProposal.renderCs (e : EncodingProposal) : List Char :=
  e.identifier.renderCs ++
    (match e.weight with
     | none => []
     | some q => ';' :: 'q' :: '=' :: q.renderCs)

/-- Modelled from the spec: `EncodingProposal::from_str` on an already
trimmed, non-empty, non-wildcard token.  Split at the first `;`; the left
part names the identifier (case-insensitively, unknown names fall back to
the extension variant); a malformed or out-of-range quality parameter
makes the whole directive unknown, yielding `none` (spec section 4.1). -/
def EncodingProposal.fromStrCs (cs : List Char) : Option EncodingProposal :=
  let (name, param) := splitSemi cs
  let enc := Encoding.fromName name
  match param with
  | none => some ⟨enc, none⟩
  | some p =>
    match Quality.parseParam (trimCs p) with
    | some q => some ⟨enc, some q⟩
    | none => none

/-- `EncodingProposal::from_str` as the source sees it: a `crate::Result`
of an optional proposal; per the lenient policy it never fails on header
text, so the error side is never inhabited. -/
def EncodingProposal.from_str (cs : List Char) : Except String (Option EncodingProposal) :=
  .ok (EncodingProposal.fromStrCs cs)

/-- The fixed header name constant `ACCEPT_ENCODING`. -/
def ACCEPT_ENCODING : String := "accept-encoding"

/-- Modelled from the spec: the collaborator header store (spec section 6),
an ordered map from header names to the lists of values held under them;
header values are modelled as `String`s. -/
structure Headers where
  entries : List (String × List String)
deriving DecidableEq, Repr

/-- Fetch all values stored under a name. -/
def Headers.get (h : Headers) (name : String) : Option (List String) :=
  (h.entries.find? (fun p => p.1 == name)).map (fun p => p.2)

/-- Modelled from the spec: `Headers::insert` installs the value under the
name, replacing whatever values were stored there before. -/
def Headers.insert (h : Headers) (name : String) (value : String) : Headers :=
  ⟨(name, [value]) :: h.entries.filter (fun p => !(p.1 == name))⟩

/-- `AcceptEncoding` from the source: a wildcard flag plus the ordered
entries. -/
structure AcceptEncoding where
  wildcard : Bool
  entries : List EncodingProposal
deriving DecidableEq, Repr

/-- Parser state while walking the comma-separated pieces: the wildcard
flag seen so far and the entries collected so far. -/
abbrev AeState := Bool × List EncodingProposal

/-- One iteration of the inner loop of `from_headers`: trim the piece;
skip it when empty; a lone `*` only sets the wildcard flag; otherwise
delegate to `EncodingProposal::from_str`, appending a parsed proposal and
dropping an unknown one, and propagating a hard error. -/
def AcceptEncoding.parsePart (st : AeState) (piece : List Char) : Except String AeState :=
  let part := trimCs piece
  if part.isEmpty then .ok st
  else if part = ['*'] then .ok (true, st.2)
  else
    match EncodingProposal.from_str part with
    | .ok (some entry) => .ok (st.1, st.2 ++ [entry])
    | .ok none => .ok st
    | .error e => .error e

/-- One iteration of the outer loop of `from_headers`: trim the header
value, split it on commas and run the inner loop over the pieces. -/
def AcceptEncoding.parseValue (st : AeState) (value : String) : Except String AeState :=
  (splitComma (trimCs value.data)).foldlM AcceptEncoding.parsePart st

/-- `AcceptEncoding::from_headers`: absent header yields `Ok(None)`;
otherwise every stored value is walked in order, starting from no
wildcard and no entries. -/
def AcceptEncoding.from_headers (headers : Headers) : Except String (Option AcceptEncoding) :=
  match headers.get ACCEPT_ENCODING with
  | none => .ok none
  | some values =>
    match values.foldlM AcceptEncoding.parseValue (false, []) with
    | .ok st => .ok (some ⟨st.1, st.2⟩)
    | .error e => .error e

/-- `AcceptEncoding::value` at the character level: write the entries in
order, the first bare and the rest prefixed by `", "`; then, if the
wildcard flag is set, write `"*"` bare when the output so far is empty
and `", *"` otherwise. -/
def AcceptEncoding.valueCs (ae : AcceptEncoding) : List Char :=
  let output :=
    match ae.entries with
    | [] => []
    | e :: rest => rest.foldl (fun acc d => acc ++ ',' :: ' ' :: d.renderCs) e.renderCs
  if ae.wildcard then
    if output.length = 0 then output ++ ['*'] else output ++ [',', ' ', '*']
  else output

/-- `AcceptEncoding::value`: the rendered header value (a `HeaderValue`
modelled as a `String`). -/
def AcceptEncoding.value (ae : AcceptEncoding) : String :=
  String.mk ae.valueCs

/-- `AcceptEncoding::apply`: insert the rendered value into the store
under `ACCEPT_ENCODING`. -/
def AcceptEncoding.apply (ae : AcceptEncoding) (headers : Headers) : Headers :=
  headers.insert ACCEPT_ENCODING ae.value

/-- Modelled from the spec: `ToHeaderValues for AcceptEncoding` converts
the one rendered value into a one-element sequence of header values
(spec section 6), reusing `value`. -/
def AcceptEncoding.to_header_values (ae : AcceptEncoding) : Except String (List String) :=
  .ok [ae.value]

/-- Validity of an encoding identifier, the data-model invariant of spec
section 3: the well-known variants are always valid; an extension token
must be non-empty, made of token characters and not spell a well-known
name. -/
def Encoding.valid : Encoding → Bool
  | .other s => !s.data.isEmpty && s.data.all isTokenChar && (Encoding.known? s.data).isNone
  | _ => true

/-- Validity of a quality, the data-model invariant of spec section 3: a
single integer digit, at most three fractional digits, and a value in
[0.000, 1.000]. -/
def Quality.valid (q : Quality) : Bool :=
  decide (q.whole ≤ 1) && decide (q.frac.length ≤ 3) && q.frac.all isDigitChar &&
    (q.whole == 0 || q.frac.all (fun c => c == '0'))

/-- Validity of one proposal: a valid identifier and, when present, a
valid weight. -/
def EncodingProposal.valid (e : EncodingProposal) : Bool :=
  e.identifier.valid &&
    (match e.weight with
     | none => true
     | some q => q.valid)

/-- Validity of the aggregate: all entries valid. -/
def AcceptEncoding.valid (ae : AcceptEncoding) : Bool :=
  ae.entries.all EncodingProposal.valid

/-- Follows the spec's wording for the serialize path (spec section 4.3):
join the entries in order with `", "`; if the wildcard is set, append
`"*"` after a comma-space when `entries` is non-empty, or as the sole
content when `entries` is empty. -/
def joinToks : List (List Char) → List Char
  | [] => []
  | [t] => t
  | t :: ts => t ++ ',' :: ' ' :: joinToks ts

/-- The serialize path as the spec words it, to be compared with the
source's `value`. -/
def AcceptEncoding.renderSpecCs (ae : AcceptEncoding) : List Char :=
  let base := joinToks (ae.entries.map EncodingProposal.renderCs)
  if ae.wildcard then
    if ae.entries.isEmpty then ['*'] else base ++ [',', ' ', '*']
  else base

/-! ## Character-class facts -/

/-- Characters that can occur in the rendering of a valid proposal:
token characters, digits, `;`, `=` and `.`. -/
def renderChar (c : Char) : Bool :=
  isTokenChar c || isDigitChar c || c.toNat == 59 || c.toNat == 61 || c.toNat == 46

theorem renderChar_not_ws {c : Char} (h : renderChar c = true) : isWsChar c = false := by
  cases hws : isWsChar c with
  | false => rfl
  | true =>
    exfalso
    simp only [renderChar, isTokenChar, isDigitChar, isWsChar, Bool.or_eq_true,
      Bool.and_eq_true, decide_eq_true_eq, beq_iff_eq] at h hws
    omega

theorem renderChar_ne_comma {c : Char} (h : renderChar c = true) : c ≠ ',' := by
  intro hc
  subst hc
  simp only [renderChar, isTokenChar, isDigitChar, Bool.or_eq_true, Bool.and_eq_true,
    decide_eq_true_eq, beq_iff_eq] at h
  have hv : (','.toNat : Nat) = 44 := rfl
  omega

theorem renderChar_ne_star {c : Char} (h : renderChar c = true) : c ≠ '*' := by
  intro hc
  subst hc
  simp only [renderChar, isTokenChar, isDigitChar, Bool.or_eq_true, Bool.and_eq_true,
    decide_eq_true_eq, beq_iff_eq] at h
  have hv : ('*'.toNat : Nat) = 42 := rfl
  omega

theorem tokenChar_ne_semi {c : Char} (h : isTokenChar c = true) : c ≠ ';' := by
  intro hc
  subst hc
  simp only [isTokenChar, isDigitChar, Bool.or_eq_true, Bool.and_eq_true,
    decide_eq_true_eq, beq_iff_eq] at h
  have hv : (';'.toNat : Nat) = 59 := rfl
  omega

theorem tokenChar_renderChar {c : Char} (h : isTokenChar c = true) : renderChar c = true := by
  simp only [renderChar, h, Bool.true_or]

theorem digitChar_renderChar {c : Char} (h : isDigitChar c = true) : renderChar c = true := by
  simp only [renderChar, h, Bool.true_or, Bool.or_true]

theorem renderChar_printable {c : Char} (h : renderChar c = true) : isPrintableAscii c = true := by
  simp only [renderChar, isTokenChar, isDigitChar, isPrintableAscii, Bool.or_eq_true,
    Bool.and_eq_true, decide_eq_true_eq, beq_iff_eq] at h ⊢
  omega

theorem lowerChar_of_tokenChar {c : Char} (h : isTokenChar c = true) : lowerChar c = c := by
  simp only [isTokenChar, isDigitChar, Bool.or_eq_true, Bool.and_eq_true,
    decide_eq_true_eq, beq_iff_eq] at h
  simp only [lowerChar, Bool.and_eq_true, decide_eq_true_eq]
  split
  · omega
  · rfl

theorem map_lowerChar_of_tokenChars {l : List Char} (h : ∀ c ∈ l, isTokenChar c = true) :
    l.map lowerChar = l := by
  induction l with
  | nil => rfl
  | cons c cs ih =>
    simp only [List.map_cons, lowerChar_of_tokenChar (h c (List.mem_cons_self c cs)),
      ih (fun x hx => h x (List.mem_cons_of_mem c hx))]

/-! ## Trimming -/

theorem dropWhile_eq_self_of_head {p : Char → Bool} {l : List Char} {c : Char}
    (h1 : l.head? = some c) (h2 : p c = false) : l.dropWhile p = l := by
  cases l with
  | nil => rfl
  | cons a l' =>
    simp only [List.head?_cons, Option.some.injEq] at h1
    subst h1
    simp [List.dropWhile_cons, h2]

theorem dropWhile_eq_self_of_no_sat {p : Char → Bool} {l : List Char}
    (h : ∀ c ∈ l, p c = false) : l.dropWhile p = l := by
  cases l with
  | nil => rfl
  | cons a l' =>
    exact dropWhile_eq_self_of_head (List.head?_cons) (h a (List.mem_cons_self a l'))

theorem dropWhile_eq_nil_of_all_sat {p : Char → Bool} {l : List Char}
    (h : ∀ c ∈ l, p c = true) : l.dropWhile p = [] := by
  induction l with
  | nil => rfl
  | cons a l' ih =>
    simp only [List.dropWhile_cons, h a (List.mem_cons_self a l'), if_true]
    exact ih (fun x hx => h x (List.mem_cons_of_mem a hx))

theorem trimCs_nil : trimCs [] = [] := rfl

theorem trimCs_eq_self_of_no_ws {l : List Char} (h : ∀ c ∈ l, isWsChar c = false) :
    trimCs l = l := by
  unfold trimCs
  rw [dropWhile_eq_self_of_no_sat h,
    dropWhile_eq_self_of_no_sat (fun c hc => h c (List.mem_reverse.mp hc)),
    List.reverse_reverse]

theorem trimCs_space_cons (l : List Char) : trimCs (' ' :: l) = trimCs l := by
  unfold trimCs
  rw [List.dropWhile_cons, if_pos (show isWsChar ' ' = true from rfl)]

theorem trimCs_eq_nil_of_all_ws {l : List Char} (h : ∀ c ∈ l, isWsChar c = true) :
    trimCs l = [] := by
  unfold trimCs
  rw [dropWhile_eq_nil_of_all_sat h]
  rfl

theorem trimCs_eq_self_of_edges {l : List Char}
    (h1 : ∀ c, l.head? = some c → isWsChar c = false)
    (h2 : ∀ c, l.getLast? = some c → isWsChar c = false) : trimCs l = l := by
  cases l with
  | nil => rfl
  | cons a l' =>
    unfold trimCs
    rw [dropWhile_eq_self_of_head List.head?_cons (h1 a List.head?_cons)]
    cases hlast : (a :: l').getLast? with
    | none => simp at hlast
    | some c =>
      rw [dropWhile_eq_self_of_head (by rw [List.head?_reverse]; exact hlast) (h2 c hlast),
        List.reverse_reverse]

/-! ## Splitting -/

theorem splitComma_of_no_comma {l : List Char} (h : ∀ c ∈ l, c ≠ ',') :
    splitComma l = [l] := by
  induction l with
  | nil => rfl
  | cons a l' ih =>
    simp only [splitComma]
    rw [if_neg (h a (List.mem_cons_self a l')),
      ih (fun x hx => h x (List.mem_cons_of_mem a hx))]

theorem splitComma_append_comma {a b : List Char} (h : ∀ c ∈ a, c ≠ ',') :
    splitComma (a ++ ',' :: b) = a :: splitComma b := by
  induction a with
  | nil => simp [splitComma]
  | cons x a' ih =>
    simp only [List.cons_append, splitComma, List.append_eq]
    rw [if_neg (h x (List.mem_cons_self x a')),
      ih (fun y hy => h y (List.mem_cons_of_mem x hy))]

theorem splitSemi_of_no_semi {l : List Char} (h : ∀ c ∈ l, c ≠ ';') :
    splitSemi l = (l, none) := by
  induction l with
  | nil => rfl
  | cons a l' ih =>
    simp only [splitSemi]
    rw [if_neg (h a (List.mem_cons_self a l')),
      ih (fun x hx => h x (List.mem_cons_of_mem a hx))]

theorem splitSemi_append_semi {a b : List Char} (h : ∀ c ∈ a, c ≠ ';') :
    splitSemi (a ++ ';' :: b) = (a, some b) := by
  induction a with
  | nil => simp [splitSemi]
  | cons x a' ih =>
    simp only [List.cons_append, splitSemi, List.append_eq]
    rw [if_neg (h x (List.mem_cons_self x a')),
      ih (fun y hy => h y (List.mem_cons_of_mem x hy))]

/-! ## Characters of valid renderings -/

theorem encoding_renderCs_tokenChars {enc : Encoding} (h : enc.valid = true) :
    ∀ c ∈ enc.renderCs, isTokenChar c = true := by
  cases enc with
  | other s =>
    simp only [Encoding.valid, Bool.and_eq_true, List.all_eq_true] at h
    exact h.1.2
  | gzip => exact fun c hc => List.all_eq_true.mp (by decide) c hc
  | deflate => exact fun c hc => List.all_eq_true.mp (by decide) c hc
  | br => exact fun c hc => List.all_eq_true.mp (by decide) c hc
  | identity => exact fun c hc => List.all_eq_true.mp (by decide) c hc
  | compress => exact fun c hc => List.all_eq_true.mp (by decide) c hc

theorem encoding_renderCs_ne_nil {enc : Encoding} (h : enc.valid = true) :
    enc.renderCs ≠ [] := by
  cases enc with
  | other s =>
    intro hx
    have hd : s.data = [] := hx
    simp only [Encoding.valid, Bool.and_eq_true] at h
    rw [hd] at h
    simp at h
  | gzip => decide
  | deflate => decide
  | br => decide
  | identity => decide
  | compress => decide

theorem quality_whole_cases {q : Quality} (h : q.valid = true) : q.whole = 0 ∨ q.whole = 1 := by
  simp only [Quality.valid, Bool.and_eq_true, decide_eq_true_eq] at h
  omega

theorem quality_frac_digits {q : Quality} (h : q.valid = true) :
    ∀ c ∈ q.frac, isDigitChar c = true := by
  simp only [Quality.valid, Bool.and_eq_true, decide_eq_true_eq, List.all_eq_true] at h
  exact h.1.2

theorem quality_renderCs_chars {q : Quality} (h : q.valid = true) :
    ∀ c ∈ q.renderCs, isDigitChar c = true ∨ c = '.' := by
  intro c hc
  simp only [Quality.renderCs] at hc
  rcases List.mem_append.mp hc with hd | hf
  · rcases quality_whole_cases h with h0 | h1
    · rw [h0] at hd
      exact Or.inl (List.all_eq_true.mp (by decide) c hd)
    · rw [h1] at hd
      exact Or.inl (List.all_eq_true.mp (by decide) c hd)
  · by_cases he : q.frac.isEmpty
    · rw [if_pos he] at hf
      simp at hf
    · rw [if_neg he] at hf
      rcases List.mem_cons.mp hf with rfl | hmem
      · right; rfl
      · left; exact quality_frac_digits h c hmem

theorem proposal_renderCs_chars {e : EncodingProposal} (h : e.valid = true) :
    ∀ c ∈ e.renderCs, renderChar c = true := by
  simp only [EncodingProposal.valid, Bool.and_eq_true] at h
  intro c hc
  simp only [EncodingProposal.renderCs] at hc
  rcases List.mem_append.mp hc with hid | hw
  · exact tokenChar_renderChar (encoding_renderCs_tokenChars h.1 c hid)
  · cases hwq : e.weight with
    | none => rw [hwq] at hw; simp at hw
    | some q =>
      rw [hwq] at hw
      have hq : q.valid = true := by rw [hwq] at h; exact h.2
      rcases List.mem_cons.mp hw with rfl | hw2
      · decide
      rcases List.mem_cons.mp hw2 with rfl | hw3
      · decide
      rcases List.mem_cons.mp hw3 with rfl | hw4
      · decide
      rcases quality_renderCs_chars hq c hw4 with hd | rfl
      · exact digitChar_renderChar hd
      · decide

theorem proposal_renderCs_ne_nil {e : EncodingProposal} (h : e.valid = true) :
    e.renderCs ≠ [] := by
  simp only [EncodingProposal.valid, Bool.and_eq_true] at h
  simp only [EncodingProposal.renderCs]
  intro hx
  rcases List.append_eq_nil.mp hx with ⟨h1, _⟩
  exact encoding_renderCs_ne_nil h.1 h1

theorem proposal_renderCs_ne_star {e : EncodingProposal} (h : e.valid = true) :
    e.renderCs ≠ ['*'] := by
  intro hx
  have hm : '*' ∈ e.renderCs := by rw [hx]; exact List.mem_cons_self _ _
  exact renderChar_ne_star (proposal_renderCs_chars h '*' hm) rfl

/-! ## Joining tokens -/

theorem joinToks_cons_cons (t t' : List Char) (ts : List (List Char)) :
    joinToks (t :: t' :: ts) = t ++ ',' :: ' ' :: joinToks (t' :: ts) := rfl

theorem joinToks_ne_nil {t : List Char} {ts : List (List Char)} (h : t ≠ []) :
    joinToks (t :: ts) ≠ [] := by
  cases ts with
  | nil => exact h
  | cons t' ts' =>
    rw [joinToks_cons_cons]
    exact List.append_ne_nil_of_left_ne_nil h _

theorem joinToks_head? {t : List Char} (ts : List (List Char)) (h : t ≠ []) :
    (joinToks (t :: ts)).head? = t.head? := by
  cases ts with
  | nil => rfl
  | cons t' ts' =>
    rw [joinToks_cons_cons]
    exact List.head?_append_of_ne_nil _ h

theorem joinToks_append_single {ts : List (List Char)} (x : List Char) (h : ts ≠ []) :
    joinToks (ts ++ [x]) = joinToks ts ++ ',' :: ' ' :: x := by
  induction ts with
  | nil => exact absurd rfl h
  | cons t ts' ih =>
    cases ts' with
    | nil => rfl
    | cons t'' ts'' =>
      have hrec := ih (List.cons_ne_nil t'' ts'')
      simp only [List.cons_append, joinToks_cons_cons] at hrec ⊢
      rw [hrec]
      simp [List.append_assoc, List.cons_append]

theorem joinToks_getLast? {ts : List (List Char)} {x : List Char} (hx : x ≠ []) :
    (joinToks (ts ++ [x])).getLast? = x.getLast? := by
  cases ts with
  | nil => rfl
  | cons t ts' =>
    rw [joinToks_append_single x (List.cons_ne_nil t ts')]
    rw [List.getLast?_append]
    have : (',' :: ' ' :: x) = [',', ' '] ++ x := rfl
    rw [this, List.getLast?_append, List.getLast?_eq_getLast x hx, Option.or_some, Option.or_some]

theorem joinToks_chars {P : Char → Bool} {toks : List (List Char)}
    (h : ∀ t ∈ toks, ∀ c ∈ t, P c = true) :
    ∀ c ∈ joinToks toks, P c = true ∨ c = ',' ∨ c = ' ' := by
  induction toks with
  | nil => intro c hc; simp [joinToks] at hc
  | cons t ts ih =>
    cases ts with
    | nil =>
      intro c hc
      exact Or.inl (h t (List.mem_cons_self t []) c hc)
    | cons t' ts' =>
      intro c hc
      rw [joinToks_cons_cons] at hc
      rcases List.mem_append.mp hc with hc1 | hc2
      · exact Or.inl (h t (List.mem_cons_self _ _) c hc1)
      · rcases List.mem_cons.mp hc2 with rfl | hc3
        · exact Or.inr (Or.inl rfl)
        rcases List.mem_cons.mp hc3 with rfl | hc4
        · exact Or.inr (Or.inr rfl)
        exact ih (fun u hu => h u (List.mem_cons_of_mem t hu)) c hc4

theorem trim_joinToks {toks : List (List Char)} (hne : toks ≠ [])
    (h1 : ∀ t ∈ toks, t ≠ []) (h2 : ∀ t ∈ toks, ∀ c ∈ t, isWsChar c = false) :
    trimCs (joinToks toks) = joinToks toks := by
  apply trimCs_eq_self_of_edges
  · intro c hc
    cases toks with
    | nil => exact absurd rfl hne
    | cons t ts =>
      have ht : t ≠ [] := h1 t (List.mem_cons_self t ts)
      rw [joinToks_head? ts ht, List.head?_eq_head ht, Option.some.injEq] at hc
      exact hc ▸ h2 t (List.mem_cons_self t ts) _ (List.head_mem ht)
  · intro c hc
    rcases List.eq_nil_or_concat toks with rfl | ⟨L, x, hconcat⟩
    · exact absurd rfl hne
    · rw [List.concat_eq_append] at hconcat
      subst hconcat
      have hx : x ≠ [] := h1 x (List.mem_append.mpr (Or.inr (List.mem_cons_self x [])))
      rw [joinToks_getLast? hx, List.getLast?_eq_getLast x hx, Option.some.injEq] at hc
      exact hc ▸ h2 x (List.mem_append.mpr (Or.inr (List.mem_cons_self x []))) _
        (List.getLast_mem hx)

theorem split_joinToks {t : List Char} {ts : List (List Char)}
    (h : ∀ u ∈ t :: ts, ∀ c ∈ u, c ≠ ',') :
    splitComma (joinToks (t :: ts)) = t :: ts.map (fun u => ' ' :: u) := by
  induction ts generalizing t with
  | nil =>
    exact splitComma_of_no_comma (h t (List.mem_cons_self t []))
  | cons t' ts' ih =>
    rw [joinToks_cons_cons,
      splitComma_append_comma (h t (List.mem_cons_self _ _))]
    have hrec := ih (t := t') (fun u hu => h u (List.mem_cons_of_mem t hu))
    have hstep : splitComma (' ' :: joinToks (t' :: ts')) =
        (' ' :: t') :: ts'.map (fun u => ' ' :: u) := by
      simp only [splitComma]
      rw [if_neg (by decide : ¬ (' ' = ','))]
      rw [hrec]
    rw [hstep]
    rfl

theorem String.mk_data_eq (s : String) : String.mk s.data = s := by cases s; rfl

theorem fromName_renderCs {enc : Encoding} (h : enc.valid = true) :
    Encoding.fromName enc.renderCs = enc := by
  cases enc with
  | other s =>
    have htok : ∀ c ∈ s.data, isTokenChar c = true := by
      simp only [Encoding.valid, Bool.and_eq_true, List.all_eq_true] at h
      exact h.1.2
    have hnone : Encoding.known? s.data = none := by
      simp only [Encoding.valid, Bool.and_eq_true, Option.isNone_iff_eq_none] at h
      exact h.2
    simp only [Encoding.fromName, Encoding.renderCs,
      map_lowerChar_of_tokenChars htok, hnone, String.mk_data_eq]
  | gzip => decide
  | deflate => decide
  | br => decide
  | identity => decide
  | compress => decide

theorem quality_param_roundtrip {q : Quality} (h : q.valid = true) :
    Quality.parseParam ('q' :: '=' :: q.renderCs) = some q := by
  obtain ⟨w, f⟩ := q
  have hlen : f.length ≤ 3 := by
    simp only [Quality.valid, Bool.and_eq_true, decide_eq_true_eq] at h
    exact h.1.1.2
  have hdig : f.all isDigitChar = true := by
    simp only [Quality.valid, Bool.and_eq_true] at h
    exact h.1.2
  have hw01 : w = 0 ∨ w = 1 := quality_whole_cases h
  have hrange : w = 0 ∨ f.all (fun c => c == '0') = true := by
    simp only [Quality.valid, Bool.and_eq_true, Bool.or_eq_true, decide_eq_true_eq,
      beq_iff_eq] at h
    rcases h.2 with h0 | h1
    · exact Or.inl h0
    · exact Or.inr h1
  rcases hw01 with rfl | rfl
  · cases f with
    | nil => decide
    | cons c f2 =>
      have hr : Quality.renderCs ⟨0, c :: f2⟩ = '0' :: '.' :: c :: f2 := by
        simp only [Quality.renderCs]
        rw [show Nat.toDigits 10 0 = ['0'] by decide]
        rfl
      rw [hr]
      have hcond : (!(c :: f2).isEmpty && decide ((c :: f2).length ≤ 3) &&
          (c :: f2).all isDigitChar) = true := by
        simp only [List.isEmpty_cons, Bool.not_false, Bool.true_and, Bool.and_eq_true,
          decide_eq_true_eq]
        exact ⟨hlen, hdig⟩
      simp [Quality.parseParam, List.dropWhile_cons,
        show isWsChar '=' = false by decide, show isWsChar '0' = false by decide,
        show isDigitChar '0' = true by decide, show ('0'.toNat : Nat) = 48 by decide,
        hcond, Quality.mk?]
      simp only [List.length_cons] at hlen
      simp only [List.all_cons, Bool.and_eq_true, List.all_eq_true] at hdig
      exact ⟨by omega, hdig.1, hdig.2⟩
  · cases f with
    | nil => decide
    | cons c f2 =>
      have hzero : ((c :: f2).all fun x => x == '0') = true := by
        rcases hrange with h0 | hz
        · omega
        · exact hz
      have hr : Quality.renderCs ⟨1, c :: f2⟩ = '1' :: '.' :: c :: f2 := by
        simp only [Quality.renderCs]
        rw [show Nat.toDigits 10 1 = ['1'] by decide]
        rfl
      rw [hr]
      have hcond : (!(c :: f2).isEmpty && decide ((c :: f2).length ≤ 3) &&
          (c :: f2).all isDigitChar) = true := by
        simp only [List.isEmpty_cons, Bool.not_false, Bool.true_and, Bool.and_eq_true,
          decide_eq_true_eq]
        exact ⟨hlen, hdig⟩
      simp [Quality.parseParam, List.dropWhile_cons,
        show isWsChar '=' = false by decide, show isWsChar '1' = false by decide,
        show isDigitChar '1' = true by decide, show ('1'.toNat : Nat) = 49 by decide,
        hcond, hzero, Quality.mk?]
      simp only [List.length_cons] at hlen
      simp only [List.all_cons, Bool.and_eq_true, List.all_eq_true] at hdig
      exact ⟨by omega, hdig.1, hdig.2⟩

theorem quality_renderCs_not_ws {q : Quality} (h : q.valid = true) :
    ∀ c ∈ q.renderCs, isWsChar c = false := by
  intro c hc
  rcases quality_renderCs_chars h c hc with hd | rfl
  · exact renderChar_not_ws (digitChar_renderChar hd)
  · decide

theorem fromStr_render {e : EncodingProposal} (h : e.valid = true) :
    EncodingProposal.fromStrCs e.renderCs = some e := by
  obtain ⟨enc, w⟩ := e
  cases w with
  | none =>
    have hencv : enc.valid = true := by
      simp only [EncodingProposal.valid, Bool.and_eq_true] at h
      exact h.1
    have hsemi : ∀ c ∈ enc.renderCs, c ≠ ';' :=
      fun c hc => tokenChar_ne_semi (encoding_renderCs_tokenChars hencv c hc)
    show EncodingProposal.fromStrCs (enc.renderCs ++ []) = _
    rw [List.append_nil]
    simp only [EncodingProposal.fromStrCs, splitSemi_of_no_semi hsemi,
      fromName_renderCs hencv]
  | some q =>
    have hpair : enc.valid = true ∧ q.valid = true := by
      simp only [EncodingProposal.valid, Bool.and_eq_true] at h
      exact h
    have hsemi : ∀ c ∈ enc.renderCs, c ≠ ';' :=
      fun c hc => tokenChar_ne_semi (encoding_renderCs_tokenChars hpair.1 c hc)
    show EncodingProposal.fromStrCs (enc.renderCs ++ ';' :: 'q' :: '=' :: q.renderCs) = _
    have htrim : trimCs ('q' :: '=' :: q.renderCs) = 'q' :: '=' :: q.renderCs := by
      apply trimCs_eq_self_of_no_ws
      intro c hc
      rcases List.mem_cons.mp hc with rfl | hc2
      · decide
      rcases List.mem_cons.mp hc2 with rfl | hc3
      · decide
      exact quality_renderCs_not_ws hpair.2 c hc3
    simp only [EncodingProposal.fromStrCs, splitSemi_append_semi hsemi, htrim,
      quality_param_roundtrip hpair.2, fromName_renderCs hpair.1]

/-! ## The parsing loop, in pure form -/

/-- The pure content of `parsePart` (possible because `from_str` never
errors on header-value text). -/
def parsePartCore (st : AeState) (piece : List Char) : AeState :=
  let part := trimCs piece
  if part.isEmpty then st
  else if part = ['*'] then (true, st.2)
  else
    match EncodingProposal.fromStrCs part with
    | some entry => (st.1, st.2 ++ [entry])
    | none => st

theorem parsePart_eq_core (st : AeState) (piece : List Char) :
    AcceptEncoding.parsePart st piece = .ok (parsePartCore st piece) := by
  simp only [AcceptEncoding.parsePart, parsePartCore, EncodingProposal.from_str]
  by_cases h1 : (trimCs piece).isEmpty
  · rw [if_pos h1, if_pos h1]
  · rw [if_neg h1, if_neg h1]
    by_cases h2 : trimCs piece = ['*']
    · rw [if_pos h2, if_pos h2]
    · rw [if_neg h2, if_neg h2]
      cases EncodingProposal.fromStrCs (trimCs piece) <;> rfl

theorem foldlM_parsePart (ps : List (List Char)) (st : AeState) :
    ps.foldlM AcceptEncoding.parsePart st = .ok (ps.foldl parsePartCore st) := by
  induction ps generalizing st with
  | nil => rfl
  | cons p ps' ih =>
    rw [List.foldlM_cons, parsePart_eq_core]
    show ps'.foldlM AcceptEncoding.parsePart (parsePartCore st p) = _
    rw [ih]
    rfl

/-- The pure content of `parseValue`. -/
def parseValueCore (st : AeState) (value : String) : AeState :=
  (splitComma (trimCs value.data)).foldl parsePartCore st

theorem parseValue_eq_core (st : AeState) (value : String) :
    AcceptEncoding.parseValue st value = .ok (parseValueCore st value) := by
  simp only [AcceptEncoding.parseValue, parseValueCore, foldlM_parsePart]

theorem foldlM_parseValue (vs : List String) (st : AeState) :
    vs.foldlM AcceptEncoding.parseValue st = .ok (vs.foldl parseValueCore st) := by
  induction vs generalizing st with
  | nil => rfl
  | cons v vs' ih =>
    rw [List.foldlM_cons, parseValue_eq_core]
    show vs'.foldlM AcceptEncoding.parseValue (parseValueCore st v) = _
    rw [ih]
    rfl

/-- `from_headers`, computed: it never errors, and on a present header it
folds the pure parsing loop over the stored values. -/
theorem from_headers_eq_core (headers : Headers) :
    AcceptEncoding.from_headers headers = .ok
      (match headers.get ACCEPT_ENCODING with
       | none => none
       | some values =>
         some ⟨(values.foldl parseValueCore (false, [])).1,
               (values.foldl parseValueCore (false, [])).2⟩) := by
  unfold AcceptEncoding.from_headers
  cases headers.get ACCEPT_ENCODING with
  | none => rfl
  | some values =>
    dsimp only
    rw [foldlM_parseValue]

/-! ## The parsing loop on rendered tokens -/

theorem parsePartCore_space (st : AeState) (piece : List Char) :
    parsePartCore st (' ' :: piece) = parsePartCore st piece := by
  simp only [parsePartCore, trimCs_space_cons]

theorem parsePartCore_star (st : AeState) : parsePartCore st ['*'] = (true, st.2) := by
  have ht : trimCs ['*'] = ['*'] := by decide
  simp only [parsePartCore, ht]
  rfl

theorem parsePartCore_token {e : EncodingProposal} (h : e.valid = true) (st : AeState) :
    parsePartCore st e.renderCs = (st.1, st.2 ++ [e]) := by
  have htrim : trimCs e.renderCs = e.renderCs :=
    trimCs_eq_self_of_no_ws
      (fun c hc => renderChar_not_ws (proposal_renderCs_chars h c hc))
  have hne : e.renderCs ≠ [] := proposal_renderCs_ne_nil h
  simp only [parsePartCore, htrim]
  rw [if_neg (by simpa only [List.isEmpty_iff] using hne),
    if_neg (proposal_renderCs_ne_star h), fromStr_render h]

theorem foldl_parsePartCore_spaced (ps : List (List Char)) (st : AeState) :
    (ps.map (fun u => ' ' :: u)).foldl parsePartCore st = ps.foldl parsePartCore st := by
  induction ps generalizing st with
  | nil => rfl
  | cons p ps' ih =>
    rw [List.map_cons, List.foldl_cons, List.foldl_cons, parsePartCore_space, ih]

theorem foldl_parsePartCore_tokens {entries : List EncodingProposal}
    (h : entries.all EncodingProposal.valid = true) (st : AeState) :
    (entries.map EncodingProposal.renderCs).foldl parsePartCore st = (st.1, st.2 ++ entries) := by
  induction entries generalizing st with
  | nil => simp
  | cons e es ih =>
    rw [List.all_cons, Bool.and_eq_true] at h
    rw [List.map_cons, List.foldl_cons, parsePartCore_token h.1, ih h.2]
    simp

/-! ## The rendered value as a token join -/

/-- The tokens `value` writes: the rendered entries, followed by the
wildcard token when the flag is set. -/
def AcceptEncoding.tokens (ae : AcceptEncoding) : List (List Char) :=
  ae.entries.map EncodingProposal.renderCs ++ (if ae.wildcard then [['*']] else [])

theorem foldl_appendTok (ts : List (List Char)) (acc : List Char) :
    ts.foldl (fun a t => a ++ ',' :: ' ' :: t) acc =
      acc ++ ts.foldl (fun a t => a ++ ',' :: ' ' :: t) [] := by
  induction ts generalizing acc with
  | nil => simp
  | cons t ts' ih =>
    rw [List.foldl_cons, List.foldl_cons, ih (acc ++ ',' :: ' ' :: t),
      ih ([] ++ ',' :: ' ' :: t)]
    simp [List.append_assoc]

theorem foldl_output (rest : List EncodingProposal) (acc : List Char) :
    rest.foldl (fun acc d => acc ++ ',' :: ' ' :: d.renderCs) acc =
      acc ++ (rest.map EncodingProposal.renderCs).foldl
        (fun a t => a ++ ',' :: ' ' :: t) [] := by
  induction rest generalizing acc with
  | nil => simp
  | cons d ds ih =>
    rw [List.foldl_cons, ih (acc ++ ',' :: ' ' :: d.renderCs), List.map_cons,
      List.foldl_cons, foldl_appendTok _ ([] ++ ',' :: ' ' :: d.renderCs)]
    simp [List.append_assoc]

theorem joinToks_eq_foldl (t : List Char) (ts : List (List Char)) :
    joinToks (t :: ts) = t ++ ts.foldl (fun a u => a ++ ',' :: ' ' :: u) [] := by
  induction ts generalizing t with
  | nil => simp [joinToks]
  | cons t' ts' ih =>
    rw [joinToks_cons_cons, ih t', List.foldl_cons,
      foldl_appendTok _ ([] ++ ',' :: ' ' :: t')]
    simp [List.append_assoc]

theorem valueCs_eq_joinToks {ae : AcceptEncoding} (h : ae.valid = true) :
    ae.valueCs = joinToks ae.tokens := by
  obtain ⟨w, entries⟩ := ae
  cases entries with
  | nil => cases w <;> rfl
  | cons e rest =>
    have hev : e.valid = true := by
      simp only [AcceptEncoding.valid, List.all_cons, Bool.and_eq_true] at h
      exact h.1
    have houtput : rest.foldl (fun acc d => acc ++ ',' :: ' ' :: d.renderCs) e.renderCs =
        joinToks ((e :: rest).map EncodingProposal.renderCs) := by
      rw [foldl_output, List.map_cons, joinToks_eq_foldl]
    have hne : joinToks ((e :: rest).map EncodingProposal.renderCs) ≠ [] := by
      rw [List.map_cons]
      exact joinToks_ne_nil (proposal_renderCs_ne_nil hev)
    have hmapne : List.map EncodingProposal.renderCs (e :: rest) ≠ [] := by
      rw [List.map_cons]
      exact List.cons_ne_nil _ _
    show AcceptEncoding.valueCs ⟨w, e :: rest⟩ = _
    simp only [AcceptEncoding.valueCs, AcceptEncoding.tokens, houtput]
    cases w with
    | false => simp
    | true =>
      simp only [eq_self_iff_true, if_true]
      rw [if_neg (fun hlen => hne (List.length_eq_zero.mp hlen)),
        joinToks_append_single ['*'] hmapne]

theorem valueCs_eq_renderSpec {ae : AcceptEncoding} (h : ae.valid = true) :
    ae.valueCs = ae.renderSpecCs := by
  rw [valueCs_eq_joinToks h]
  obtain ⟨w, entries⟩ := ae
  cases entries with
  | nil => cases w <;> rfl
  | cons e rest =>
    have hmapne : List.map EncodingProposal.renderCs (e :: rest) ≠ [] := by
      rw [List.map_cons]
      exact List.cons_ne_nil _ _
    simp only [AcceptEncoding.tokens, AcceptEncoding.renderSpecCs]
    cases w with
    | false => simp [joinToks]
    | true =>
      simp only [eq_self_iff_true, if_true]
      rw [joinToks_append_single ['*'] hmapne,
        if_neg (by simp : ¬ (e :: rest).isEmpty = true)]

theorem tokens_ne_nil {ae : AcceptEncoding} (h : ae.valid = true) :
    ∀ t ∈ ae.tokens, t ≠ [] := by
  intro t ht
  rcases List.mem_append.mp ht with hm | hs
  · rcases List.mem_map.mp hm with ⟨e, he, rfl⟩
    have hev : e.valid = true := by
      simp only [AcceptEncoding.valid, List.all_eq_true] at h
      exact h e he
    exact proposal_renderCs_ne_nil hev
  · cases hw : ae.wildcard
    · rw [hw] at hs; simp at hs
    · rw [hw] at hs
      simp only [eq_self_iff_true, if_true, List.mem_singleton] at hs
      subst hs
      exact List.cons_ne_nil _ _

theorem tokens_chars {ae : AcceptEncoding} (h : ae.valid = true) :
    ∀ t ∈ ae.tokens, ∀ c ∈ t, renderChar c = true ∨ c = '*' := by
  intro t ht c hc
  rcases List.mem_append.mp ht with hm | hs
  · rcases List.mem_map.mp hm with ⟨e, he, rfl⟩
    have hev : e.valid = true := by
      simp only [AcceptEncoding.valid, List.all_eq_true] at h
      exact h e he
    exact Or.inl (proposal_renderCs_chars hev c hc)
  · cases hw : ae.wildcard
    · rw [hw] at hs; simp at hs
    · rw [hw] at hs
      simp only [eq_self_iff_true, if_true, List.mem_singleton] at hs
      subst hs
      rcases List.mem_singleton.mp hc with rfl
      exact Or.inr rfl

theorem tokens_no_ws {ae : AcceptEncoding} (h : ae.valid = true) :
    ∀ t ∈ ae.tokens, ∀ c ∈ t, isWsChar c = false := by
  intro t ht c hc
  rcases tokens_chars h t ht c hc with hr | rfl
  · exact renderChar_not_ws hr
  · decide

theorem tokens_no_comma {ae : AcceptEncoding} (h : ae.valid = true) :
    ∀ t ∈ ae.tokens, ∀ c ∈ t, c ≠ ',' := by
  intro t ht c hc
  rcases tokens_chars h t ht c hc with hr | rfl
  · exact renderChar_ne_comma hr
  · decide

theorem foldl_parsePartCore_tokensAll {ae : AcceptEncoding} (h : ae.valid = true) :
    ae.tokens.foldl parsePartCore (false, []) = (ae.wildcard, ae.entries) := by
  unfold AcceptEncoding.tokens
  rw [List.foldl_append, foldl_parsePartCore_tokens h (false, [])]
  cases hw : ae.wildcard
  · simp
  · simp only [eq_self_iff_true, if_true, List.foldl_cons, List.foldl_nil]
    rw [parsePartCore_star]
    simp

theorem parse_value_of_render {ae : AcceptEncoding} (h : ae.valid = true) :
    parseValueCore (false, []) ae.value = (ae.wildcard, ae.entries) := by
  have hdata : (ae.value).data = ae.valueCs := rfl
  unfold parseValueCore
  rw [hdata, valueCs_eq_joinToks h]
  cases htoks : ae.tokens with
  | nil =>
    have hent : ae.entries = [] := by
      have := htoks
      unfold AcceptEncoding.tokens at this
      rcases List.append_eq_nil.mp this with ⟨h1, _⟩
      exact List.map_eq_nil_iff.mp h1
    have hw : ae.wildcard = false := by
      have := htoks
      unfold AcceptEncoding.tokens at this
      rcases List.append_eq_nil.mp this with ⟨_, h2⟩
      cases hww : ae.wildcard
      · rfl
      · rw [hww] at h2; simp at h2
    rw [hent, hw]
    rfl
  | cons t ts =>
    have htrim : trimCs (joinToks (t :: ts)) = joinToks (t :: ts) := by
      rw [← htoks]
      exact trim_joinToks (htoks ▸ List.cons_ne_nil t ts) (tokens_ne_nil h) (tokens_no_ws h)
    have hsplit : splitComma (joinToks (t :: ts)) = t :: ts.map (fun u => ' ' :: u) :=
      split_joinToks (htoks ▸ tokens_no_comma h)
    rw [htrim, hsplit, List.foldl_cons, foldl_parsePartCore_spaced, ← List.foldl_cons,
      ← htoks, foldl_parsePartCore_tokensAll h]

/-! ## The header store -/

theorem Headers.get_insert_self (h : Headers) (n v : String) :
    (h.insert n v).get n = some [v] := by
  simp [Headers.get, Headers.insert, List.find?_cons]

theorem find?_filter_other {l : List (String × List String)} {n m : String} (hnm : n ≠ m) :
    List.find? (fun p => p.1 == n) (l.filter (fun p => !(p.1 == m))) =
      List.find? (fun p => p.1 == n) l := by
  induction l with
  | nil => rfl
  | cons p l' ih =>
    by_cases hm : p.1 = m
    · have h1 : (!(p.1 == m)) = false := by simp [hm]
      have h2 : (p.1 == n) = false := by
        simp only [beq_eq_false_iff_ne, ne_eq]
        rw [hm]
        exact fun hc => hnm hc.symm
      rw [List.filter_cons, h1]
      simp only [Bool.false_eq_true, if_false]
      rw [ih, List.find?_cons, h2]
    · have h1 : (!(p.1 == m)) = true := by simp [hm]
      rw [List.filter_cons, h1]
      simp only [if_true]
      rw [List.find?_cons, List.find?_cons]
      cases hpn : (p.1 == n)
      · exact ih
      · rfl

theorem Headers.get_insert_other (h : Headers) {n m : String} (v : String) (hnm : n ≠ m) :
    (h.insert m v).get n = h.get n := by
  have hne : (m == n) = false := by
    simp only [beq_eq_false_iff_ne, ne_eq]
    exact fun hc => hnm hc.symm
  simp only [Headers.get, Headers.insert, List.find?_cons, hne]
  rw [find?_filter_other hnm]

/-! ## Claim theorems -/

/-- C1: round-trip — for every `AcceptEncoding` built from valid encoding
proposals and a wildcard flag, applying it to a header store and parsing
that store back returns `Ok(Some(list))` with the same entries in the same
order and the same wildcard flag. -/
theorem accept_encoding_roundtrip (headers : Headers) (ae : AcceptEncoding)
    (hv : ae.valid = true) :
    AcceptEncoding.from_headers (ae.apply headers) = .ok (some ae) := by
  have happ : (ae.apply headers).get ACCEPT_ENCODING = some [ae.value] :=
    Headers.get_insert_self headers ACCEPT_ENCODING ae.value
  rw [from_headers_eq_core, happ]
  dsimp only
  rw [List.foldl_cons, List.foldl_nil, parse_value_of_render hv]

theorem accept_encoding_roundtrip_witness :
    AcceptEncoding.valid
        ⟨true, [⟨.gzip, some ⟨0, ['5']⟩⟩, ⟨.other "zstd", none⟩]⟩ = true ∧
      AcceptEncoding.from_headers
        (AcceptEncoding.apply ⟨true, [⟨.gzip, some ⟨0, ['5']⟩⟩, ⟨.other "zstd", none⟩]⟩
          ⟨[("x", ["y"])]⟩) =
        .ok (some ⟨true, [⟨.gzip, some ⟨0, ['5']⟩⟩, ⟨.other "zstd", none⟩]⟩) :=
  ⟨by decide, accept_encoding_roundtrip ⟨[("x", ["y"])]⟩ _ (by decide)⟩

/-- C2: lenient parsing never fails on bad directives — `from_headers`
always returns `Ok`, and `"gzip, bogus-token;weird=1, br"` parses to the
entries `[gzip, br]` with the malformed directive silently dropped. -/
theorem lenient_parsing_never_fails :
    (∀ headers : Headers, ∃ r, AcceptEncoding.from_headers headers = .ok r) ∧
      AcceptEncoding.from_headers ⟨[("accept-encoding", ["gzip, bogus-token;weird=1, br"])]⟩ =
        .ok (some ⟨false, [⟨.gzip, none⟩, ⟨.br, none⟩]⟩) :=
  ⟨fun headers => ⟨_, from_headers_eq_core headers⟩, rfl⟩

/-- C3: absence vs emptiness — `from_headers` returns `Ok(None)` exactly
when the store has no `accept-encoding` header; a present but
whitespace-only value yields `Ok(Some)` with no entries and no wildcard. -/
theorem absence_vs_emptiness :
    (∀ headers : Headers,
        AcceptEncoding.from_headers headers = .ok none ↔
          headers.get ACCEPT_ENCODING = none) ∧
      (∀ (headers : Headers) (v : String),
        headers.get ACCEPT_ENCODING = some [v] →
        v.data.all isWsChar = true →
        AcceptEncoding.from_headers headers = .ok (some ⟨false, []⟩)) := by
  constructor
  · intro headers
    rw [from_headers_eq_core]
    cases hg : headers.get ACCEPT_ENCODING with
    | none => simp
    | some values => simp
  · intro headers v hget hws
    rw [from_headers_eq_core, hget]
    dsimp only
    rw [List.foldl_cons, List.foldl_nil]
    unfold parseValueCore
    rw [trimCs_eq_nil_of_all_ws (List.all_eq_true.mp hws)]
    rfl

theorem absence_vs_emptiness_witness :
    AcceptEncoding.from_headers ⟨[("accept-encoding", ["  "])]⟩ = .ok (some ⟨false, []⟩) :=
  absence_vs_emptiness.2 ⟨[("accept-encoding", ["  "])]⟩ "  " rfl (by decide)

/-- C4: wildcard isolation — `"*"` alone yields `wildcard = true` with no
entries, `"gzip,*"` yields the flag plus the one entry, repeated `"*"`
tokens collapse to the single flag, and a `"*"` piece only ever sets the
flag, never producing a proposal. -/
theorem wildcard_isolation :
    AcceptEncoding.from_headers ⟨[("accept-encoding", ["*"])]⟩ = .ok (some ⟨true, []⟩) ∧
    AcceptEncoding.from_headers ⟨[("accept-encoding", ["gzip,*"])]⟩ =
      .ok (some ⟨true, [⟨.gzip, none⟩]⟩) ∧
    AcceptEncoding.from_headers ⟨[("accept-encoding", ["*,*,*"])]⟩ = .ok (some ⟨true, []⟩) ∧
    ∀ st : AeState, AcceptEncoding.parsePart st ['*'] = .ok (true, st.2) :=
  ⟨rfl, rfl, rfl, fun st => by rw [parsePart_eq_core, parsePartCore_star]⟩

/-- C5: render format — `value` writes the entries in order joined by
`", "`, appending `"*"` after a comma-space when the wildcard is set and
entries exist, or alone when they do not; the empty wildcard list renders
to exactly `"*"` and the empty plain list to exactly `""`. -/
theorem render_format :
    (∀ ae : AcceptEncoding, ae.valid = true → ae.value = String.mk ae.renderSpecCs) ∧
    AcceptEncoding.value ⟨true, []⟩ = "*" ∧ AcceptEncoding.value ⟨false, []⟩ = "" := by
  refine ⟨fun ae hv => ?_, rfl, rfl⟩
  unfold AcceptEncoding.value
  rw [valueCs_eq_renderSpec hv]

theorem render_format_witness :
    AcceptEncoding.valid ⟨true, [⟨.gzip, none⟩, ⟨.br, some ⟨0, ['8']⟩⟩]⟩ = true ∧
      AcceptEncoding.value ⟨true, [⟨.gzip, none⟩, ⟨.br, some ⟨0, ['8']⟩⟩]⟩ =
        String.mk (AcceptEncoding.renderSpecCs ⟨true, [⟨.gzip, none⟩, ⟨.br, some ⟨0, ['8']⟩⟩]⟩) :=
  ⟨by decide, render_format.1 _ (by decide)⟩

/-- C6: multiple header lines concatenate — the two stored lines
`["gzip"]` and `["br;q=0.8"]` parse to `[gzip, br(q=0.8)]` in order,
exactly as the single joined value `"gzip, br;q=0.8"` does. -/
theorem multi_line_concat :
    AcceptEncoding.from_headers ⟨[("accept-encoding", ["gzip", "br;q=0.8"])]⟩ =
      .ok (some ⟨false, [⟨.gzip, none⟩, ⟨.br, some ⟨0, ['8']⟩⟩]⟩) ∧
    AcceptEncoding.from_headers ⟨[("accept-encoding", ["gzip, br;q=0.8"])]⟩ =
      .ok (some ⟨false, [⟨.gzip, none⟩, ⟨.br, some ⟨0, ['8']⟩⟩]⟩) :=
  ⟨rfl, rfl⟩

/-- C7: ASCII output — the string built by `value` consists only of
printable ASCII characters, so the unchecked conversion to a header value
at the end of `value` is safe. -/
theorem value_printable_ascii (ae : AcceptEncoding) (hv : ae.valid = true) :
    (ae.value).data.all isPrintableAscii = true := by
  have hdata : (ae.value).data = ae.valueCs := rfl
  rw [hdata, valueCs_eq_joinToks hv, List.all_eq_true]
  intro c hc
  have hP : ∀ t ∈ ae.tokens, ∀ x ∈ t, (renderChar x || x == '*') = true := by
    intro t ht x hx
    rcases tokens_chars hv t ht x hx with hr | rfl
    · simp [hr]
    · simp
  rcases joinToks_chars hP c hc with hP2 | rfl | rfl
  · have hsplit2 : renderChar c = true ∨ c = '*' := by simpa using hP2
    rcases hsplit2 with hr | rfl
    · exact renderChar_printable hr
    · decide
  · decide
  · decide

theorem value_printable_ascii_witness :
    AcceptEncoding.valid ⟨true, [⟨.deflate, some ⟨1, ['0']⟩⟩]⟩ = true ∧
      (AcceptEncoding.value ⟨true, [⟨.deflate, some ⟨1, ['0']⟩⟩]⟩).data.all
        isPrintableAscii = true :=
  ⟨by decide, value_printable_ascii _ (by decide)⟩

/-- Any quality produced by the parameter parser carries at most three
fractional digits. -/
theorem mk?_frac_bound {w : Nat} {f : List Char} (hf : f.length ≤ 3) :
    (Quality.mk? w f).all (fun q => decide (q.frac.length ≤ 3)) = true := by
  unfold Quality.mk?
  split
  · simpa using hf
  · rfl

/-- C8: header-values emission — for an `AcceptEncoding` whose render is
non-empty, `to_header_values` returns `Ok` of exactly one header value,
the one produced by `value`. -/
theorem to_header_values_single (ae : AcceptEncoding) (_hne : ae.value ≠ "") :
    ae.to_header_values = .ok [ae.value] := rfl

theorem to_header_values_single_witness :
    AcceptEncoding.value ⟨false, [⟨.gzip, none⟩]⟩ ≠ "" ∧
      AcceptEncoding.to_header_values ⟨false, [⟨.gzip, none⟩]⟩ =
        .ok [AcceptEncoding.value ⟨false, [⟨.gzip, none⟩]⟩] :=
  ⟨by decide, to_header_values_single _ (by decide)⟩

/-- C9: weight precision — parsing `"gzip;q=0.5"` and rendering gives back
exactly `"gzip;q=0.5"`, and every quality the parameter parser accepts
carries (and hence renders) at most three fractional digits with no
padding. -/
theorem weight_precision :
    AcceptEncoding.from_headers ⟨[("accept-encoding", ["gzip;q=0.5"])]⟩ =
      .ok (some ⟨false, [⟨.gzip, some ⟨0, ['5']⟩⟩]⟩) ∧
    AcceptEncoding.value ⟨false, [⟨.gzip, some ⟨0, ['5']⟩⟩]⟩ = "gzip;q=0.5" ∧
    ∀ p : List Char, (Quality.parseParam p).all (fun q => decide (q.frac.length ≤ 3)) = true := by
  refine ⟨rfl, rfl, fun p => ?_⟩
  unfold Quality.parseParam
  repeat' split
  all_goals first
    | rfl
    | exact mk?_frac_bound (by decide)
    | (rename_i hguard
       simp only [Bool.and_eq_true, decide_eq_true_eq] at hguard
       exact mk?_frac_bound hguard.1.2)

/-- C10: apply installs exactly one `accept-encoding` value, the rendered
one, replacing whatever was stored under that name, and leaves every
other header name untouched. -/
theorem apply_frame (ae : AcceptEncoding) (headers : Headers) :
    ((ae.apply headers).get ACCEPT_ENCODING = some [ae.value]) ∧
    ∀ n : String, n ≠ ACCEPT_ENCODING → (ae.apply headers).get n = headers.get n := by
  constructor
  · exact Headers.get_insert_self headers ACCEPT_ENCODING ae.value
  · intro n hn
    exact Headers.get_insert_other headers ae.value hn

theorem apply_frame_witness :
    (AcceptEncoding.apply ⟨false, [⟨.gzip, none⟩]⟩
      ⟨[("x", ["y"]), ("accept-encoding", ["old"])]⟩).get "x" = some ["y"] :=
  (apply_frame ⟨false, [⟨.gzip, none⟩]⟩ ⟨[("x", ["y"]), ("accept-encoding", ["old"])]⟩).2
    "x" (by decide)
